import Mathlib

/-!
A shallow embedding of the `linked-futures` crate (`src/lib.rs`): the
`linked_block!` and `link_futures!` macros, together with the used contracts of
the two external collaborators they are built on — the `one-of-futures`
closed-union generator and `futures::stream::FuturesUnordered`.

The embedding has two layers:

* a static layer modelling what each macro expansion declares and when the
  expanded code compiles (`linkedBlock`, `linkFuturesCompiles`);
* a dynamic layer modelling one cooperative execution of the block built by
  `link_futures!`: each operation is abstracted by the scheduler step at which
  it completes (`none` = never) and the value it produces, and the task set
  yields completed tasks in completion order (`linkFuturesAwait`, `raceRun`).
-/

namespace LinkedFutures

/-- A caller-supplied asynchronous operation, abstracted over the cooperative
scheduler: `readyAt` is the scheduler step at which the operation completes
(`none` means it never completes), and `value` is the result it produces on
completion. -/
structure Op (α : Type) where
  readyAt : Option Nat
  value : α
deriving DecidableEq

/-- A wrapped task as pushed into the task set by `link_futures!` (lib.rs lines
100-102): the async block awaits the operation and pairs its result with the
case's identifier, so the wrapped task completes exactly when the operation
does and its output is the `(identifier, result)` pair. -/
structure Task (ι α : Type) where
  readyAt : Option Nat
  out : ι × α
deriving DecidableEq

/-- lib.rs lines 100-102: wrap one `key => value` entry into a task. -/
def wrap (k : ι) (op : Op α) : Task ι α :=
  ⟨op.readyAt, (k, op.value)⟩

/-- lib.rs lines 99-102: the contents of the `FuturesUnordered` set, one
wrapped task per `key => value` entry, pushed in entry order. -/
def buildTasks (entries : List (ι × Op α)) : List (Task ι α) :=
  entries.map (fun e => wrap e.1 e.2)

/-- Comparison of completion times: `optEarlier a b` holds when a task
completing at time `a` finishes strictly before one completing at time `b`
(a never-completing task finishes after everything). -/
def optEarlier : Option Nat → Option Nat → Bool
  | some a, some b => decide (a < b)
  | some _, none => true
  | none, _ => false

/-- The first task of the set ever to complete, if any does. This models the
used contract of `FuturesUnordered::next` (spec section 6): it yields completed
tasks in completion order, not push order; a tie between tasks completing at
the same step is implementation-defined, which the model resolves in favor of
the earliest-pushed task. -/
def selectWinner : List (Task ι α) → Option (Task ι α)
  | [] => none
  | t :: ts =>
    match selectWinner ts with
    | none => if t.readyAt.isSome then some t else none
    | some u =>
      if t.readyAt.isSome && !optEarlier u.readyAt t.readyAt then some t else some u

/-- The observable behavior of awaiting the async block that `link_futures!`
produces: it can suspend forever or return one `(identifier, result)` pair.
These are the only behaviors a compiled invocation has: a zero-entry
invocation leaves the element type of the `FuturesUnordered` unconstrained and
is rejected by type inference (see `linkFuturesCompiles`), so it never yields
a block to await. -/
inductive AwaitResult (ι α : Type) where
  | hangs : AwaitResult ι α
  | returns : ι × α → AwaitResult ι α
deriving DecidableEq

/-- lib.rs lines 103-107: `linked.next().await.unwrap()`. `next()` yields the
first task of the set to complete, and the await suspends forever when no task
ever completes. The model describes the compiled invocations, whose entry list
is non-empty (a zero-entry invocation fails type inference, see
`linkFuturesCompiles`); on the empty list the equations below make the value
`hangs`, but no theorem relies on that vacuous case. -/
def linkFuturesAwait (entries : List (ι × Op α)) : AwaitResult ι α :=
  match selectWinner (buildTasks entries) with
  | some u => .returns u.out
  | none => .hangs

/-- Map a function over the result component of an await outcome, leaving the
identifier and the hang outcome untouched. -/
def AwaitResult.mapVal (f : α → β) : AwaitResult ι α → AwaitResult ι β
  | .hangs => .hangs
  | .returns (i, a) => .returns (i, f a)

/-- Map a function over every operation's produced value in an entry list,
leaving identifiers and completion times untouched. -/
def mapEntries (f : α → β) (entries : List (ι × Op α)) : List (ι × Op β) :=
  entries.map (fun e => (e.1, ⟨e.2.readyAt, f e.2.value⟩))

/-- Map a function over a wrapped task's result component. -/
def Task.mapOut (f : α → β) (t : Task ι α) : Task ι β :=
  ⟨t.readyAt, (t.out.1, f t.out.2)⟩

/-- The derive list attached to the generated identifier enum
(lib.rs line 23). -/
def identifierEnumDerives : List String :=
  ["Copy", "Clone", "PartialEq", "Eq", "PartialOrd", "Ord", "Hash", "Debug"]

/-- The declarations produced by one `linked_block!` expansion: the variant
names of the generated one-of union and the variant names and derive list of
the generated identifier enum. -/
structure RaceShape where
  unionVariants : List String
  enumVariants : List String
  enumDerives : List String
deriving DecidableEq

/-- Duplicate-freedom of a name list, as the Rust compiler checks it on the
variant list of an enum declaration: duplicate variant names are a
compile-time error. -/
def distinct : List String → Bool
  | [] => true
  | x :: xs => !xs.contains x && distinct xs

/-- Modelled from the spec: the external `one_of_futures::impl_one_of!`
generator invoked on lib.rs line 21 is not part of this repository. Per the
spec's contract for the closed-union generator (sections 4.1 and 6), it takes
an ordered, non-empty, duplicate-free list of case names and fails at
declaration time otherwise. -/
def implOneOfAccepts (names : List String) : Bool :=
  !names.isEmpty && distinct names

/-- lib.rs lines 19-27: `linked_block!` hands the same variant list, in the
same order, to `impl_one_of!` and to the generated identifier enum, and
attaches the derive list of line 23. The expansion compiles exactly when the
union generator accepts the list and the identifier enum declaration is legal
Rust, that is, free of duplicate variant names. -/
def linkedBlock (names : List String) : Option RaceShape :=
  if implOneOfAccepts names && distinct names then
    some ⟨names, names, identifierEnumDerives⟩
  else
    none

/-- lib.rs lines 98-107: when the `link_futures!` expansion type-checks.
Three constraints of the expanded code decide it. First, each `key => value`
entry names the union constructor `$one_of_block::$key` and the identifier
value `$identifier_enum::$key` (lines 100-101), so every key must resolve to a
declared variant of both generated types. Second, the `FuturesUnordered` is
homogeneous, so two entries with the same key would force two distinct
anonymous async-block types (line 100-102; every `async` block has its own
type) into the one type slot of that variant of the one-of union — a type
mismatch, hence no duplicate keys. Third, a declared variant with no entry
leaves that variant's type parameter of the one-of union unconstrained — and a
zero-entry invocation leaves the whole element type of the `FuturesUnordered`
built on line 99 unconstrained — so inference fails unless every declared
variant is bound. -/
def linkFuturesCompiles (shape : RaceShape) (keys : List String) : Bool :=
  keys.all (fun k => shape.unionVariants.contains k && shape.enumVariants.contains k)
    && distinct keys
    && shape.unionVariants.all (fun v => keys.contains v)

/-- The strict order that Rust's `derive(PartialOrd, Ord)` places on a
fieldless enum with `n` variants: values are identified with their declaration
positions and compare by discriminant, that is, by declaration order. -/
def derivedEnumLt (n : Nat) (i j : Fin n) : Bool :=
  decide (i.val < j.val)

/-- Modelled from the spec: the state of one cooperative execution of the race
(sections 4.3 and 5) — the scheduler clock together with the outcome, once one
wrapped task has completed. -/
structure RunState (ι α : Type) where
  clock : Nat
  outcome : Option (ι × α)
deriving DecidableEq

/-- The first task, in push order, completing at the given scheduler step. -/
def firstCompleting (tasks : List (Task ι α)) (now : Nat) : Option (Task ι α) :=
  tasks.find? (fun t => t.readyAt == some now)

/-- Modelled from the spec: one scheduler step of the race (sections 4.3 and
5). While there is no outcome, every task advances cooperatively and the first
task completing at the current step, if any, becomes the outcome. The moment an
outcome exists the combinator's execution has ended and the task set was
dropped with it, so a step changes nothing: the remaining tasks are abandoned,
make no further progress, and no second completion is ever pulled. -/
def raceStep (tasks : List (Task ι α)) (s : RunState ι α) : RunState ι α :=
  match s.outcome with
  | some _ => s
  | none =>
    match firstCompleting tasks s.clock with
    | some t => ⟨s.clock + 1, some t.out⟩
    | none => ⟨s.clock + 1, none⟩

/-- Run the race for `n` scheduler steps from the initial state. -/
def raceRun (tasks : List (Task ι α)) : Nat → RunState ι α
  | 0 => ⟨0, none⟩
  | n + 1 => raceStep tasks (raceRun tasks n)

/-! ### Supporting lemmas about the task-set selection -/

theorem selectWinner_mem {ι α : Type} :
    ∀ (ts : List (Task ι α)) (u : Task ι α), selectWinner ts = some u → u ∈ ts := by
  intro ts
  induction ts with
  | nil => intro u h; simp [selectWinner] at h
  | cons t ts ih =>
    intro u h
    simp only [selectWinner] at h
    cases hrec : selectWinner ts with
    | none =>
      simp only [hrec] at h
      split at h
      · injection h with h; subst h; exact List.mem_cons_self t ts
      · cases h
    | some w =>
      simp only [hrec] at h
      split at h
      · injection h with h; subst h; exact List.mem_cons_self t ts
      · injection h with h; subst h; exact List.mem_cons_of_mem t (ih _ hrec)

theorem selectWinner_ready {ι α : Type} :
    ∀ (ts : List (Task ι α)) (u : Task ι α),
      selectWinner ts = some u → u.readyAt.isSome = true := by
  intro ts
  induction ts with
  | nil => intro u h; simp [selectWinner] at h
  | cons t ts ih =>
    intro u h
    simp only [selectWinner] at h
    cases hrec : selectWinner ts with
    | none =>
      simp only [hrec] at h
      split at h
      · next hc => injection h with h; subst h; exact hc
      · cases h
    | some w =>
      simp only [hrec] at h
      split at h
      · next hc =>
        injection h with h; subst h
        exact (Bool.and_eq_true _ _).mp hc |>.1
      · injection h with h; subst h; exact ih _ hrec

theorem selectWinner_isSome {ι α : Type} :
    ∀ ts : List (Task ι α),
      (∃ t ∈ ts, t.readyAt.isSome = true) → (selectWinner ts).isSome = true := by
  intro ts
  induction ts with
  | nil => rintro ⟨t, ht, _⟩; simp at ht
  | cons t ts ih =>
    rintro ⟨u, hu, hru⟩
    simp only [selectWinner]
    cases hrec : selectWinner ts with
    | some w => simp only [hrec]; split <;> simp
    | none =>
      simp only [hrec]
      rcases List.mem_cons.mp hu with h | h
      · subst h; simp [hru]
      · have := ih ⟨u, h, hru⟩
        rw [hrec] at this
        simp at this

theorem selectWinner_map {ι α β : Type} (f : α → β) :
    ∀ ts : List (Task ι α),
      selectWinner (ts.map (Task.mapOut f)) = (selectWinner ts).map (Task.mapOut f) := by
  intro ts
  induction ts with
  | nil => rfl
  | cons t ts ih =>
    cases hrec : selectWinner ts with
    | none =>
      have hmap : selectWinner (List.map (Task.mapOut f) ts) = none := by
        rw [ih, hrec]; rfl
      simp only [List.map_cons, selectWinner, hrec, hmap, Task.mapOut]
      by_cases hr : t.readyAt.isSome = true
      · simp [hr, Task.mapOut]
      · simp [hr]
    | some w =>
      have hmap : selectWinner (List.map (Task.mapOut f) ts) = some (Task.mapOut f w) := by
        rw [ih, hrec]; rfl
      simp only [List.map_cons, selectWinner, hrec, hmap, Task.mapOut]
      by_cases hc : (t.readyAt.isSome && !optEarlier w.readyAt t.readyAt) = true
      · simp [hc, Task.mapOut]
      · simp [hc, Task.mapOut]

theorem buildTasks_mapEntries {ι α β : Type} (f : α → β) (entries : List (ι × Op α)) :
    buildTasks (mapEntries f entries) = (buildTasks entries).map (Task.mapOut f) := by
  induction entries with
  | nil => rfl
  | cons e es ih =>
    simp only [mapEntries, buildTasks, List.map_cons] at ih ⊢
    exact congrArg _ ih

/-! ### Claim theorems -/

/-- C1, counterexample: a well-formed one-operation race instance whose only
operation never completes makes the awaited block suspend forever, so awaiting
it does not return any `(identifier, result)` pair, contradicting the claim
that every well-formed instance with N >= 1 operations returns exactly one
pair. -/
theorem never_completing_race_hangs :
    linkFuturesAwait [(("Only" : String), (⟨none, (0 : Nat)⟩ : Op Nat))]
      = AwaitResult.hangs := rfl

/-- C1, amended: for every well-formed race instance with N >= 1 operations of
which at least one eventually completes, awaiting the block produced by
`link_futures!` returns exactly one `(identifier, result)` pair, and the
identifier is one of the N declared case names bound by the instance. -/
theorem exactly_one_winner_conditional {ι α : Type} (entries : List (ι × Op α))
    (k : ι) (op : Op α) (hmem : (k, op) ∈ entries) (hready : op.readyAt.isSome = true) :
    ∃ out, linkFuturesAwait entries = AwaitResult.returns out
      ∧ out.1 ∈ entries.map Prod.fst := by
  have hw : wrap k op ∈ buildTasks entries := by
    simp only [buildTasks]; exact List.mem_map.mpr ⟨(k, op), hmem, rfl⟩
  have hsome : (selectWinner (buildTasks entries)).isSome = true :=
    selectWinner_isSome _ ⟨wrap k op, hw, hready⟩
  cases hsel : selectWinner (buildTasks entries) with
  | none => rw [hsel] at hsome; simp at hsome
  | some u =>
    refine ⟨u.out, ?_, ?_⟩
    · simp only [linkFuturesAwait, hsel]
    · have hmemu : u ∈ buildTasks entries := selectWinner_mem _ _ hsel
      simp only [buildTasks] at hmemu
      rcases List.mem_map.mp hmemu with ⟨e, he, hwe⟩
      have h1 : u.out.1 = e.1 := by rw [← hwe]; rfl
      rw [h1]
      exact List.mem_map.mpr ⟨e, he, rfl⟩

/-- C1, witness for the amended theorem at a concrete one-entry instance. -/
theorem exactly_one_winner_conditional_witness :
    ∃ out, linkFuturesAwait [(("Stop" : String), (⟨some 0, (42 : Nat)⟩ : Op Nat))]
        = AwaitResult.returns out
      ∧ out.1 ∈ [(("Stop" : String), (⟨some 0, (42 : Nat)⟩ : Op Nat))].map Prod.fst :=
  exactly_one_winner_conditional _ "Stop" ⟨some 0, 42⟩ (by simp) rfl

/-- C2: if exactly one of the operations of a race instance ever becomes ready
to complete (every other bound operation never completes), awaiting the
`link_futures!` block returns the pair of that operation's case identifier and
the value that operation produced. -/
theorem correct_attribution {ι α : Type} (entries : List (ι × Op α)) (k : ι) (op : Op α)
    (hmem : (k, op) ∈ entries) (hready : op.readyAt.isSome = true)
    (huniq : ∀ k' (op' : Op α), (k', op') ∈ entries → op'.readyAt.isSome = true →
      k' = k ∧ op' = op) :
    linkFuturesAwait entries = AwaitResult.returns (k, op.value) := by
  have hw : wrap k op ∈ buildTasks entries := by
    simp only [buildTasks]; exact List.mem_map.mpr ⟨(k, op), hmem, rfl⟩
  have hsome : (selectWinner (buildTasks entries)).isSome = true :=
    selectWinner_isSome _ ⟨wrap k op, hw, hready⟩
  cases hsel : selectWinner (buildTasks entries) with
  | none => rw [hsel] at hsome; simp at hsome
  | some u =>
    have hmemu : u ∈ buildTasks entries := selectWinner_mem _ _ hsel
    have hru : u.readyAt.isSome = true := selectWinner_ready _ _ hsel
    simp only [buildTasks] at hmemu
    rcases List.mem_map.mp hmemu with ⟨e, he, hwe⟩
    have hre : e.2.readyAt.isSome = true := by rw [← hwe] at hru; exact hru
    rcases huniq e.1 e.2 he hre with ⟨h1, h2⟩
    have hout : u.out = (k, op.value) := by rw [← hwe, h1, h2]; rfl
    simp only [linkFuturesAwait, hsel, hout]

/-- C2, witness: a two-entry instance where only the `Stop` case ever
completes, mirroring the crate's `it_works` test. -/
theorem correct_attribution_witness :
    linkFuturesAwait [(("Never" : String), (⟨none, (0 : Nat)⟩ : Op Nat)),
        (("Stop" : String), (⟨some 0, (7 : Nat)⟩ : Op Nat))]
      = AwaitResult.returns ("Stop", 7) :=
  correct_attribution _ "Stop" ⟨some 0, 7⟩ (by simp) rfl
    (by
      intro k' op' hm hr
      simp only [List.mem_cons, List.not_mem_nil, or_false, Prod.mk.injEq] at hm
      rcases hm with ⟨h1, h2⟩ | ⟨h1, h2⟩
      · subst h2; simp at hr
      · exact ⟨h1, h2⟩)

/-- C3, counterexample: over the shape declared from the crate's test case
list, the zero-entry invocation does not compile — the element type of the
`FuturesUnordered` is unconstrained — so no block exists whose await could
panic at runtime, contradicting the claim that awaiting the resulting block
panics. -/
theorem zero_entry_invocation_not_compiled :
    linkFuturesCompiles ⟨["Never", "Stop"], ["Never", "Stop"], identifierEnumDerives⟩
      [] = false := rfl

/-- C3, amended: invoking `link_futures!` with zero `key => value` entries
over any declared shape fails fast at compile time — the invocation is
rejected by type inference before any block exists — rather than producing a
block that could suspend forever. -/
theorem zero_entry_invocation_rejected (names : List String) (shape : RaceShape)
    (h : linkedBlock names = some shape) :
    linkFuturesCompiles shape [] = false := by
  have hs : shape = ⟨names, names, identifierEnumDerives⟩ := by
    simp only [linkedBlock] at h
    split at h
    · injection h with h; exact h.symm
    · cases h
  have hne : names ≠ [] := by
    intro hnil
    subst hnil
    simp [linkedBlock, implOneOfAccepts] at h
  subst hs
  rcases names with _ | ⟨x, xs⟩
  · exact absurd rfl hne
  · simp [linkFuturesCompiles]

/-- C3, witness for the amended theorem at a concrete one-case shape. -/
theorem zero_entry_invocation_rejected_witness :
    linkFuturesCompiles ⟨["Only"], ["Only"], identifierEnumDerives⟩ [] = false :=
  zero_entry_invocation_rejected ["Only"] _ rfl

/-- C9: for a shape with a single case and a race instance binding one
operation that completes, the outcome is deterministically that case's
identifier paired with that operation's result. -/
theorem single_case_deterministic {ι α : Type} (k : ι) (op : Op α) (n : Nat)
    (h : op.readyAt = some n) :
    linkFuturesAwait [(k, op)] = AwaitResult.returns (k, op.value) := by
  simp [linkFuturesAwait, buildTasks, wrap, selectWinner, h]

/-- C9, witness at a concrete single-case instance. -/
theorem single_case_deterministic_witness :
    linkFuturesAwait [(("Only" : String), (⟨some 3, (5 : Nat)⟩ : Op Nat))]
      = AwaitResult.returns ("Only", 5) :=
  single_case_deterministic "Only" ⟨some 3, 5⟩ 3 rfl

theorem distinct_iff_nodup : ∀ names : List String, distinct names = true ↔ names.Nodup := by
  intro names
  induction names with
  | nil => simp [distinct]
  | cons x xs ih =>
    simp [distinct, List.nodup_cons, ih, List.elem_iff]

/-- C4: declaring a shape with `linked_block!` fails at declaration/compile
time exactly when the supplied case-name list contains a duplicate name or is
empty, so a malformed list never produces a shape that could reach race
time. -/
theorem shape_declaration_rejects_malformed (names : List String) :
    linkedBlock names = none ↔ names = [] ∨ ¬ names.Nodup := by
  rw [← distinct_iff_nodup]
  simp only [linkedBlock, implOneOfAccepts]
  rcases names with _ | ⟨x, xs⟩
  · simp [distinct]
  · by_cases hd : distinct (x :: xs) = true
    · simp [hd]
    · simp [hd]

/-- C4, witness: the empty list and a duplicated list are both rejected. -/
theorem shape_declaration_rejects_malformed_witness :
    linkedBlock [] = none ∧ linkedBlock ["A", "A"] = none :=
  ⟨(shape_declaration_rejects_malformed []).mpr (Or.inl rfl),
   (shape_declaration_rejects_malformed ["A", "A"]).mpr (Or.inr (by decide))⟩

/-- C5: a race invocation over a declared shape compiles exactly when it binds
each declared case name exactly once: every supplied key is declared, no key
is supplied twice (two entries with one key would force two distinct
async-block types into the variant's single type slot), and no declared case
is omitted (an unbound variant leaves its type parameter unconstrained). An
instance that omits a declared case, binds the same case twice, or names an
undeclared case is therefore rejected at compile time — before the combinator
boundary — and never runs as a race. -/
theorem instance_binds_each_declared_case_exactly_once (names : List String)
    (shape : RaceShape) (keys : List String) (h : linkedBlock names = some shape) :
    linkFuturesCompiles shape keys = true
      ↔ (∀ k ∈ keys, k ∈ names) ∧ keys.Nodup ∧ ∀ k ∈ names, k ∈ keys := by
  have hs : shape = ⟨names, names, identifierEnumDerives⟩ := by
    simp only [linkedBlock] at h
    split at h
    · injection h with h; exact h.symm
    · cases h
  subst hs
  simp only [linkFuturesCompiles, Bool.and_eq_true, List.all_eq_true,
    Bool.and_self, distinct_iff_nodup, List.elem_iff]
  constructor
  · rintro ⟨⟨hk, hd⟩, hc⟩
    exact ⟨hk, hd, hc⟩
  · rintro ⟨hk, hd, hc⟩
    exact ⟨⟨hk, hd⟩, hc⟩

/-- C5, witness: binding each declared case exactly once, in any order,
compiles. -/
theorem instance_binds_each_declared_case_exactly_once_witness :
    linkFuturesCompiles ⟨["Never", "Stop"], ["Never", "Stop"], identifierEnumDerives⟩
      ["Stop", "Never"] = true :=
  (instance_binds_each_declared_case_exactly_once ["Never", "Stop"] _
    ["Stop", "Never"] rfl).mpr (by decide)

/-- C6: the combinator never inspects, transforms, or special-cases the
winning operation's result: transforming every operation's produced value
commutes with running the race, and whenever the race returns a pair its
result component is exactly the value produced by an operation bound to the
returned identifier — in particular a failure value produced by the winning
operation is carried through unmodified. -/
theorem failure_transparency {ι α β : Type} (f : α → β) (entries : List (ι × Op α)) :
    linkFuturesAwait (mapEntries f entries)
        = AwaitResult.mapVal f (linkFuturesAwait entries)
      ∧ ∀ i a, linkFuturesAwait entries = AwaitResult.returns (i, a) →
          ∃ op : Op α, (i, op) ∈ entries ∧ a = op.value := by
  constructor
  · simp only [linkFuturesAwait, buildTasks_mapEntries, selectWinner_map]
    cases hsel : selectWinner (buildTasks entries) with
    | none => rfl
    | some u => simp [AwaitResult.mapVal, Task.mapOut]
  · intro i a h
    simp only [linkFuturesAwait] at h
    cases hsel : selectWinner (buildTasks entries) with
    | none => simp only [hsel] at h; simp at h
    | some u =>
      simp only [hsel] at h
      injection h with h
      have hmemu : u ∈ buildTasks entries := selectWinner_mem _ _ hsel
      simp only [buildTasks] at hmemu
      rcases List.mem_map.mp hmemu with ⟨e, he, hwe⟩
      have hpair : (e.1, e.2.value) = (i, a) := by rw [← h, ← hwe]; rfl
      have h1 : e.1 = i := congrArg Prod.fst hpair
      have h2 : e.2.value = a := congrArg Prod.snd hpair
      refine ⟨e.2, ?_, h2.symm⟩
      rw [← h1]
      exact he

/-- C6, witness: a race whose only operation produces the failure value
`Except.error` sees exactly that failure value as the returned result. -/
theorem failure_transparency_witness :
    ∃ op : Op (Except String Nat),
      (("Op" : String), op)
          ∈ [(("Op" : String), (⟨some 0, Except.error "boom"⟩ : Op (Except String Nat)))]
        ∧ (Except.error "boom" : Except String Nat) = op.value :=
  (failure_transparency id
      [(("Op" : String), (⟨some 0, Except.error "boom"⟩ : Op (Except String Nat)))]).2
    "Op" (Except.error "boom") rfl

/-- C7: for every shape declared with `linked_block!`, the generated
identifier enum has exactly the union's variant list — one value per case
name, same names, same order — and its derive list carries equality comparison
and debug formatting. -/
theorem shape_union_enum_correspondence (names : List String) (shape : RaceShape)
    (h : linkedBlock names = some shape) :
    shape.enumVariants = shape.unionVariants ∧ shape.unionVariants = names
      ∧ "PartialEq" ∈ shape.enumDerives ∧ "Eq" ∈ shape.enumDerives
      ∧ "Debug" ∈ shape.enumDerives := by
  have hs : shape = ⟨names, names, identifierEnumDerives⟩ := by
    simp only [linkedBlock] at h
    split at h
    · injection h with h; exact h.symm
    · cases h
  subst hs
  refine ⟨rfl, rfl, ?_, ?_, ?_⟩ <;> simp [identifierEnumDerives]

/-- C7, witness at the shape declared from the crate's test case list. -/
theorem shape_union_enum_correspondence_witness :
    (⟨["Never", "Stop"], ["Never", "Stop"], identifierEnumDerives⟩ : RaceShape).enumVariants
        = (⟨["Never", "Stop"], ["Never", "Stop"],
            identifierEnumDerives⟩ : RaceShape).unionVariants
      ∧ (⟨["Never", "Stop"], ["Never", "Stop"],
            identifierEnumDerives⟩ : RaceShape).unionVariants = ["Never", "Stop"]
      ∧ "PartialEq" ∈ (⟨["Never", "Stop"], ["Never", "Stop"],
            identifierEnumDerives⟩ : RaceShape).enumDerives
      ∧ "Eq" ∈ (⟨["Never", "Stop"], ["Never", "Stop"],
            identifierEnumDerives⟩ : RaceShape).enumDerives
      ∧ "Debug" ∈ (⟨["Never", "Stop"], ["Never", "Stop"],
            identifierEnumDerives⟩ : RaceShape).enumDerives :=
  shape_union_enum_correspondence ["Never", "Stop"] _ rfl

/-- C8: the moment one wrapped task has completed, its pair is the outcome and
no further completion is ever pulled: a scheduler step from any state that
already has an outcome changes nothing — the remaining tasks are abandoned
together with the dropped task set and make no further observable progress —
and hence every run is frozen from the step at which its outcome appears. -/
theorem first_completion_halts_progress {ι α : Type} (tasks : List (Task ι α)) :
    (∀ s : RunState ι α, s.outcome.isSome = true → raceStep tasks s = s)
      ∧ ∀ m n : Nat, m ≤ n → (raceRun tasks m).outcome.isSome = true →
          raceRun tasks n = raceRun tasks m := by
  have hstep : ∀ s : RunState ι α, s.outcome.isSome = true → raceStep tasks s = s := by
    intro s hs
    cases ho : s.outcome with
    | none => rw [ho] at hs; simp at hs
    | some o => simp [raceStep, ho]
  refine ⟨hstep, ?_⟩
  intro m n hmn hsome
  induction hmn with
  | refl => rfl
  | step h ih =>
    rename_i n'
    calc raceRun tasks (n' + 1) = raceStep tasks (raceRun tasks n') := rfl
      _ = raceStep tasks (raceRun tasks m) := by rw [ih]
      _ = raceRun tasks m := hstep _ hsome

/-- C8, witness: a one-task race that completes at step 0 is unchanged between
step 1 and step 5. -/
theorem first_completion_halts_progress_witness :
    raceRun [(⟨some 0, (("A" : String), (0 : Nat))⟩ : Task String Nat)] 5
      = raceRun [(⟨some 0, (("A" : String), (0 : Nat))⟩ : Task String Nat)] 1 :=
  (first_completion_halts_progress _).2 1 5 (by decide) rfl

/-- C10: beyond the equality comparison and debug formatting the spec requires
of identifiers, the generated identifier enum derives Copy, Clone, Hash,
PartialOrd and Ord, and the derived comparison is a strict total order that
follows the declaration order of the case names. -/
theorem identifier_enum_extra_traits_and_order :
    ("Copy" ∈ identifierEnumDerives ∧ "Clone" ∈ identifierEnumDerives
        ∧ "Hash" ∈ identifierEnumDerives ∧ "PartialOrd" ∈ identifierEnumDerives
        ∧ "Ord" ∈ identifierEnumDerives)
      ∧ (∀ n : Nat, ∀ i j : Fin n, derivedEnumLt n i j = true ↔ i.val < j.val)
      ∧ (∀ n : Nat, ∀ i : Fin n, derivedEnumLt n i i = false)
      ∧ (∀ n : Nat, ∀ i j k : Fin n, derivedEnumLt n i j = true →
          derivedEnumLt n j k = true → derivedEnumLt n i k = true)
      ∧ (∀ n : Nat, ∀ i j : Fin n, i ≠ j →
          derivedEnumLt n i j = true ∨ derivedEnumLt n j i = true) := by
  refine ⟨⟨?_, ?_, ?_, ?_, ?_⟩, ?_, ?_, ?_, ?_⟩
  · simp [identifierEnumDerives]
  · simp [identifierEnumDerives]
  · simp [identifierEnumDerives]
  · simp [identifierEnumDerives]
  · simp [identifierEnumDerives]
  · intro n i j; simp [derivedEnumLt]
  · intro n i; simp [derivedEnumLt]
  · intro n i j k h1 h2
    simp only [derivedEnumLt, decide_eq_true_eq] at h1 h2 ⊢
    omega
  · intro n i j hne
    rcases Nat.lt_or_ge i.val j.val with hlt | hge
    · exact Or.inl (by simp [derivedEnumLt, hlt])
    · have hlt : j.val < i.val :=
        Nat.lt_of_le_of_ne hge (fun e => hne (Fin.ext e.symm))
      exact Or.inr (by simp [derivedEnumLt, hlt])

/-- C10, witness: Ord is among the derives and, on a two-case shape, the first
declared value compares below the second. -/
theorem identifier_enum_extra_traits_and_order_witness :
    "Ord" ∈ identifierEnumDerives ∧ derivedEnumLt 2 0 1 = true :=
  ⟨identifier_enum_extra_traits_and_order.1.2.2.2.2,
   (identifier_enum_extra_traits_and_order.2.1 2 0 1).mpr (by decide)⟩

end LinkedFutures
